import Mathlib

/-!
# rmdialog: the dialogue reveal engine

A shallow embedding of `src/rmdialog.cpp` (class `DialogueRenderer` and `main`).

Conventions of the embedding.

* A `std::string` holding dialogue text is a `List Char`; each element stands for one
  C++ `char` of the string, which is what the range-for loops of the source iterate over.
  The option strings that are only compared with literals (`side`, `halign`, `valign`)
  are Lean `String`s.
* A C++ `int` is a mathematical integer (`Int`); signed overflow is undefined behaviour
  in C++, so the embedding describes the executions in which no intermediate value
  leaves the `int` range.  `/` on `int` truncates towards zero: `Int.tdiv`.
* `TTF_SizeText(font, s, &w, &h)` is the parameter `measure : List Char → Int` (the
  width `w` it stores); `TTF_FontHeight(font)` is the parameter `fontHeight : Int`.
* A C++ `double` is an IEEE 754 binary64 value (`F64`), multiplied with
  round-to-nearest, ties-to-even; a decimal literal denotes the nearest binary64 value.
* Calls into SDL that draw, present, play, sleep or poll are recorded, in program order,
  as a list of `Action`s.
-/

namespace RmDialog

/-! ## Binary64 arithmetic -/

/-- Worker of `bitLength`: counts binary digits, at most `fuel` of them. -/
def bitLengthAux : Nat → Nat → Nat
  | 0, _ => 0
  | fuel + 1, n => if n = 0 then 0 else bitLengthAux fuel (n / 2) + 1

/-- Number of binary digits of `n` (`0` for `0`). -/
def bitLength (n : Nat) : Nat := bitLengthAux n n

/-- Worker of the normalisation of a significand: removes trailing zero bits of `m`,
raising the exponent `e` accordingly. -/
def stripZerosAux : Nat → Nat → Int → Nat × Int
  | 0, m, e => (m, e)
  | fuel + 1, m, e =>
    if m ≠ 0 ∧ m % 2 = 0 then stripZerosAux fuel (m / 2) (e + 1) else (m, e)

/-- An IEEE 754 binary64 value (the C++ `double`). `fin neg m e` is the finite value
`(-1)^neg * m * 2^e`; the values produced by the operations below are normalised
(`m` odd, or `m = 0` and `e = 0`), so that equal values are equal terms. -/
inductive F64 where
  | nan : F64
  | inf (neg : Bool) : F64
  | fin (neg : Bool) (m : Nat) (e : Int) : F64
  deriving DecidableEq, Repr

/-- Division of `m` by `2^sh`, rounded to the nearest integer, ties to even. -/
def roundHalfEven (m sh : Nat) : Nat :=
  if sh = 0 then m
  else
    let t := m / 2 ^ sh
    let r := m % 2 ^ sh
    let h := 2 ^ (sh - 1)
    if r > h ∨ (r = h ∧ t % 2 = 1) then t + 1 else t

/-- Rounding of the exact value `(-1)^neg * m * 2^e` to binary64: 53 significant bits,
least exponent `-1074` (gradual underflow), overflow to infinity from `2^1024`. -/
def F64.round (neg : Bool) (m : Nat) (e : Int) : F64 :=
  if m = 0 then .fin neg 0 0
  else
    let q : Int := max (e + (bitLength m : Int) - 53) (-1074)
    let M : Nat := if q ≤ e then m * 2 ^ (e - q).toNat else roundHalfEven m (q - e).toNat
    if M = 0 then .fin neg 0 0
    else if (bitLength M : Int) + q > 1024 then .inf neg
    else
      let s := stripZerosAux M M q
      .fin neg s.1 s.2

/-- The product of two `double`s (`*` in the source). -/
def F64.mul : F64 → F64 → F64
  | .nan, _ => .nan
  | _, .nan => .nan
  | .inf s, .inf t => .inf (xor s t)
  | .inf s, .fin t m _ => if m = 0 then .nan else .inf (xor s t)
  | .fin s m _, .inf t => if m = 0 then .nan else .inf (xor s t)
  | .fin s m e, .fin t m' e' => F64.round (xor s t) (m * m') (e + e')

/-- The binary64 value nearest to the rational `(-1)^neg * num / den`: what a decimal
literal of the source, or `atof` on a decimal argument, denotes. The quotient is
computed with more than a thousand guard bits and a sticky bit, then rounded once. -/
def F64.ofRat (neg : Bool) (num den : Nat) : F64 :=
  if den = 0 then .nan
  else
    let s := bitLength den + 1140
    let X := num * 2 ^ s / den
    let sticky := if num * 2 ^ s % den = 0 then 0 else 1
    F64.round neg (2 * X + sticky) (-((s : Int) + 1))

/-! ## Configuration -/

/-- The fields of `DialogueRenderer::Args` that the reveal engine reads, with the
default member initialisers of the source. The file names (`background`, `icon`,
`sound`, `font_path`) and `fontsize` are only used to load resources. -/
structure Args where
  dialogue : List Char := []
  side : String := "left"
  width : Int := 800
  height : Int := 600
  speed : F64 := F64.ofRat false 5 100
  delayheavy : F64 := F64.ofRat false 5 1
  delaylight : F64 := F64.ofRat false 3 1
  iconwidth : Int := 64
  iconheight : Int := 64
  padding : Int := 20
  halign : String := "left"
  valign : String := "bottom"

/-! ## Text wrapping -/

/-- The local `text_max_width` of `wrapText`. -/
def textMaxWidth (args : Args) : Int :=
  if args.side = "left" then
    args.width - (args.padding + args.iconwidth + args.padding) - args.padding
  else
    args.width - args.padding - args.iconwidth - 2 * args.padding

/-- One iteration of the `for (char c : text)` loop of `wrapText`; the state is the pair
`(lines, current_line)`. -/
def wrapStep (measure : List Char → Int) (text_max_width : Int)
    (st : List (List Char) × List Char) (c : Char) : List (List Char) × List Char :=
  let lines := st.1
  let current_line := st.2
  let test_line := current_line ++ [c]
  let w := measure test_line
  if w > text_max_width ∧ current_line ≠ [] then
    (lines ++ [current_line], [c])
  else
    (lines, test_line)

/-- The loop of `wrapText` followed by the final flush of a non-empty `current_line`,
for a given `text_max_width`. -/
def wrapLines (measure : List Char → Int) (text_max_width : Int) (text : List Char) :
    List (List Char) :=
  let st := text.foldl (wrapStep measure text_max_width) ([], [])
  if st.2 ≠ [] then st.1 ++ [st.2] else st.1

/-- The embedding of `DialogueRenderer::wrapText`. -/
def wrapText (args : Args) (measure : List Char → Int) (text : List Char) :
    List (List Char) :=
  wrapLines measure (textMaxWidth args) text

/-! ## Delay policy -/

/-- The embedding of `DialogueRenderer::getDelay`. -/
def getDelay (args : Args) (c : Char) : F64 :=
  if c = '.' ∨ c = '!' ∨ c = '?' then
    F64.mul args.speed args.delayheavy
  else if c = ',' ∨ c = ';' ∨ c = ':' then
    F64.mul args.speed args.delaylight
  else
    args.speed

/-! ## Events and actions -/

/-- An `SDL_Event`, as far as the program inspects it: `SDL_QUIT`, `SDL_KEYDOWN` with
its key code `e.key.keysym.sym`, or an event of any other type. -/
inductive Event where
  | quit : Event
  | keydown (sym : Int) : Event
  | other (type : Nat) : Event
  deriving DecidableEq, Repr

/-- The key code `SDLK_RETURN` (the carriage return character). -/
def SDLK_RETURN : Int := 13

/-- The calls the program makes into its collaborators, as recorded in a trace. -/
inductive Action where
  /-- A call of `drawBackground()`. -/
  | drawBackground : Action
  /-- A call of `drawIcon()`, with the rectangle it copies the icon to. -/
  | drawIcon (x y w h : Int) : Action
  /-- A `TTF_RenderText_Solid` of `text` copied to the renderer at `(x, y)`. -/
  | drawText (x y : Int) (text : List Char) : Action
  /-- A call of `SDL_RenderPresent`. -/
  | present : Action
  /-- A call of `Mix_PlayChannel(-1, blip_sound, 0)`. -/
  | playBlip : Action
  /-- The `sleep_for` of the reveal loop, in seconds. -/
  | sleep (seconds : F64) : Action
  /-- The `sleep_for` of `waitForExit`, in milliseconds. -/
  | sleepMs (ms : Nat) : Action
  /-- One call of `SDL_PollEvent`: `none` when it returned 0 (empty queue), else the
  event it delivered. -/
  | pollEvent (result : Option Event) : Action
  deriving DecidableEq, Repr

/-! The environment of the program is the list of event batches `evs`: its head is the
content of the SDL event queue when the next `while (SDL_PollEvent(&e))` loop runs, its
tail the batches found by the later ones. Once the list is exhausted no event ever
arrives any more. -/

/-- The events left in the queue, `rest`, are found first by the next polling loop. -/
def requeue (rest : List Event) (later : List (List Event)) : List (List Event) :=
  match rest, later with
  | [], later => later
  | rest, [] => [rest]
  | rest, b :: bs => (rest ++ b) :: bs

/-- The polling loop of `renderDialogue` (`while (SDL_PollEvent(&e)) if (e.type ==
SDL_QUIT) return;`) on the queue content `queue`: the polls made, whether `SDL_QUIT` was
met, and the events left in the queue. -/
def pollQuit : List Event → List Action × Bool × List Event
  | [] => ([.pollEvent none], false, [])
  | e :: rest =>
    if e = .quit then ([.pollEvent (some e)], true, rest)
    else
      let r := pollQuit rest
      (.pollEvent (some e) :: r.1, r.2.1, r.2.2)

/-! ## Layout -/

/-- The rectangle of `drawIcon`, as an action. -/
def drawIcon (args : Args) : Action :=
  .drawIcon
    (if args.side = "left" then args.padding else args.width - args.iconwidth - args.padding)
    (args.height - args.iconheight - args.padding)
    args.iconwidth args.iconheight

/-- The local `total_text_height` of `renderDialogue`, for `lines.size() = lineCount`
and `line_height = fontHeight + 5`. -/
def totalTextHeight (fontHeight : Int) (lineCount : Nat) : Int :=
  (lineCount : Int) * (fontHeight + 5) - 5

/-- The local `y_base` of `renderDialogue`. -/
def yBase (args : Args) (fontHeight : Int) (lineCount : Nat) : Int :=
  if args.valign = "top" then
    args.padding
  else if args.valign = "middle" then
    (args.height - totalTextHeight fontHeight lineCount).tdiv 2
  else
    args.height - totalTextHeight fontHeight lineCount - args.padding

/-- The local `text_x_start` of `renderDialogue`. -/
def textXStart (args : Args) : Int :=
  if args.side = "left" then args.padding + args.iconwidth + args.padding
  else args.padding

/-- The locals `x_base` and `prev_x_base` of `renderDialogue` (the same code, once per
use) for a line of measured width `line_width`. -/
def xBase (args : Args) (line_width : Int) : Int :=
  if args.halign = "left" then
    textXStart args
  else if args.halign = "center" then
    (args.width - line_width).tdiv 2
  else
    args.width - line_width - args.padding

/-! ## The reveal loop -/

/-- What a run of `renderDialogue` (or of one of its loops) did: the actions, whether it
left through the `return` on `SDL_QUIT`, and the event batches not yet consumed. -/
structure Reveal where
  trace : List Action
  cancelled : Bool
  events : List (List Event)
  deriving DecidableEq, Repr

/-- The `for (prev_line < line_index)` loop of `renderDialogue`: the completed lines,
each drawn at its own position. -/
def drawPrevLines (args : Args) (measure : List Char → Int) (fontHeight : Int)
    (lines : List (List Char)) (line_index : Nat) : List Action :=
  (List.range line_index).map fun prev_line =>
    let line := lines.getD prev_line []
    Action.drawText (xBase args (measure line))
      (yBase args fontHeight lines.length + (prev_line : Int) * (fontHeight + 5)) line

/-- The `for (char c : line)` loop of `renderDialogue` for the line `line_index`, on the
characters still to reveal, with `rendered_text` as revealed so far. -/
def revealChars (args : Args) (measure : List Char → Int) (fontHeight : Int)
    (lines : List (List Char)) (line_index : Nat) (x_base y_pos : Int) :
    List Char → List Char → List (List Event) → Reveal
  | [], _, evs => ⟨[], false, evs⟩
  | c :: cs, rendered_text, evs =>
    let p := pollQuit (evs.headD [])
    if p.2.1 then
      ⟨p.1, true, requeue p.2.2 evs.tail⟩
    else
      let rendered_text := rendered_text ++ [c]
      let frame :=
        [Action.drawBackground, drawIcon args]
          ++ drawPrevLines args measure fontHeight lines line_index
          ++ [Action.drawText x_base y_pos rendered_text, Action.present]
      let blip := if c ≠ ' ' then [Action.playBlip] else []
      let r := revealChars args measure fontHeight lines line_index x_base y_pos
        cs rendered_text evs.tail
      ⟨p.1 ++ frame ++ blip ++ [Action.sleep (getDelay args c)] ++ r.trace,
        r.cancelled, r.events⟩

/-- The `for (line_index < lines.size())` loop of `renderDialogue`, from `line_index`
on; `rest` is `lines` without its first `line_index` elements. -/
def revealLines (args : Args) (measure : List Char → Int) (fontHeight : Int)
    (lines : List (List Char)) : Nat → List (List Char) → List (List Event) → Reveal
  | _, [], evs => ⟨[], false, evs⟩
  | line_index, line :: rest, evs =>
    let line_width := measure line
    let x_base := xBase args line_width
    let y_pos := yBase args fontHeight lines.length + (line_index : Int) * (fontHeight + 5)
    let r := revealChars args measure fontHeight lines line_index x_base y_pos line [] evs
    if r.cancelled then r
    else
      let r' := revealLines args measure fontHeight lines (line_index + 1) rest r.events
      ⟨r.trace ++ r'.trace, r'.cancelled, r'.events⟩

/-- The embedding of `DialogueRenderer::renderDialogue`. -/
def renderDialogue (args : Args) (measure : List Char → Int) (fontHeight : Int)
    (evs : List (List Event)) : Reveal :=
  let lines := wrapText args measure args.dialogue
  let r := revealLines args measure fontHeight lines 0 lines evs
  ⟨[Action.drawBackground, drawIcon args, Action.present] ++ r.trace, r.cancelled, r.events⟩

/-! ## Dismissal and `main` -/

/-- The polling loop of `waitForExit` on the queue content `queue`: the polls made and
the value of `running` afterwards. -/
def pollExit : List Event → Bool → List Action × Bool
  | [], running => ([.pollEvent none], running)
  | e :: rest, running =>
    let running :=
      match e with
      | .quit => false
      | .keydown sym => if sym = SDLK_RETURN then false else running
      | .other _ => running
    let r := pollExit rest running
    (.pollEvent (some e) :: r.1, r.2)

/-- The embedding of `DialogueRenderer::waitForExit`: the actions made and whether the
function returned. With no batch left the queue stays empty for ever, the loop does not
end, and the result is `([], false)`. -/
def waitForExit : List (List Event) → List Action × Bool
  | [] => ([], false)
  | b :: bs =>
    let p := pollExit b true
    if p.2 then
      let r := waitForExit bs
      (p.1 ++ [Action.sleepMs 16] ++ r.1, r.2)
    else
      (p.1 ++ [Action.sleepMs 16], true)

/-- The embedding of `main`. `parsed` is the outcome of `parseArgs` (`none` when it
returned `false`), `initOk` and `loadOk` those of `initialize` and `loadResources`. The
result is the trace and the exit code, `none` when `main` does not return. -/
def main (parsed : Option Args) (initOk loadOk : Bool) (measure : List Char → Int)
    (fontHeight : Int) (evs : List (List Event)) : List Action × Option Int :=
  match parsed with
  | none => ([], some 1)
  | some args =>
    if !initOk then ([], some 1)
    else if !loadOk then ([], some 1)
    else
      let r := renderDialogue args measure fontHeight evs
      let w := waitForExit r.events
      (r.trace ++ w.1, if w.2 then some 0 else none)

/-! ## Observations on traces -/

/-- Keeps the audio and delay actions of a trace. -/
def audioDelays (trace : List Action) : List Action :=
  trace.filter fun a =>
    match a with
    | .playBlip => true
    | .sleep _ => true
    | _ => false

/-- The text on screen at each `present` of a trace: the texts drawn, in order, since
the last `drawBackground`. `shown` is the text drawn so far in the current frame. -/
def framesFrom : List Char → List Action → List (List Char)
  | _, [] => []
  | _, .drawBackground :: t => framesFrom [] t
  | shown, .drawText _ _ s :: t => framesFrom (shown ++ s) t
  | shown, .present :: t => shown :: framesFrom shown t
  | shown, _ :: t => framesFrom shown t

/-- The text on screen at each `present` of a trace. -/
def frames (trace : List Action) : List (List Char) := framesFrom [] trace

/-! ## The reveal loop as one loop over characters

The two nested loops of `renderDialogue` visit the characters of the wrapped lines in
order. The definitions below list these visits (`Cell`s) and run a single loop over
them; `revealLines_eq_runCells` shows that this is the same computation. -/

/-- One iteration of the inner loop of `renderDialogue`: the index of the line, the
line, `rendered_text` after the character was appended, and the character. -/
structure Cell where
  line_index : Nat
  line : List Char
  rendered : List Char
  c : Char

/-- The iterations of the inner loop for one line, from `rendered_text = rendered`. -/
def cellsChars (line_index : Nat) (line : List Char) : List Char → List Char → List Cell
  | [], _ => []
  | c :: cs, rendered =>
    ⟨line_index, line, rendered ++ [c], c⟩
      :: cellsChars line_index line cs (rendered ++ [c])

/-- The iterations of the inner loop for the lines `rest`, the first of which has index
`line_index`. -/
def cellsLines : Nat → List (List Char) → List Cell
  | _, [] => []
  | line_index, line :: rest =>
    cellsChars line_index line line [] ++ cellsLines (line_index + 1) rest

/-- The actions of one iteration of the inner loop after its polling loop: the redraw,
the present, the blip unless the character is a space, and the delay. -/
def cycleOf (args : Args) (measure : List Char → Int) (fontHeight : Int)
    (lines : List (List Char)) (cell : Cell) : List Action :=
  [Action.drawBackground, drawIcon args]
    ++ drawPrevLines args measure fontHeight lines cell.line_index
    ++ [Action.drawText (xBase args (measure cell.line))
          (yBase args fontHeight lines.length + (cell.line_index : Int) * (fontHeight + 5))
          cell.rendered,
        Action.present]
    ++ (if cell.c ≠ ' ' then [Action.playBlip] else [])
    ++ [Action.sleep (getDelay args cell.c)]

/-- A single loop over the iterations `cells`, each made of the polling loop of
`renderDialogue` and, unless `SDL_QUIT` was met, of the actions `cycle cell`. -/
def runCells (cycle : Cell → List Action) : List Cell → List (List Event) → Reveal
  | [], evs => ⟨[], false, evs⟩
  | cell :: cells, evs =>
    let p := pollQuit (evs.headD [])
    if p.2.1 then
      ⟨p.1, true, requeue p.2.2 evs.tail⟩
    else
      let r := runCells cycle cells evs.tail
      ⟨p.1 ++ cycle cell ++ r.trace, r.cancelled, r.events⟩

/-- The audio and delay actions of the iteration that reveals `c`. -/
def blipAndDelay (args : Args) (c : Char) : List Action :=
  (if c ≠ ' ' then [Action.playBlip] else []) ++ [Action.sleep (getDelay args c)]

/-- The text on screen after the redraw of the iteration `cell`: the completed lines
and the revealed part of the current one. -/
def shownOf (lines : List (List Char)) (cell : Cell) : List Char :=
  ((List.range cell.line_index).map fun j => lines.getD j []).flatten ++ cell.rendered

/-- A list of actions that are all polls. -/
def IsPolls (l : List Action) : Prop := ∀ a ∈ l, ∃ r, a = Action.pollEvent r

/-! ## Example inputs -/

/-- The configuration of a run without options: every field has its default. -/
def defaultArgs : Args := {}

/-- A font in which every character is 10 pixels wide. -/
def charWidth10 (s : List Char) : Int := 10 * (s.length : Int)

/-- The default configuration with the dialogue `Hi! Ok.`. -/
def hiOkArgs : Args := { dialogue := ['H', 'i', '!', ' ', 'O', 'k', '.'] }

/-- The default configuration with a dialogue of ten characters. -/
def tenCharArgs : Args :=
  { dialogue := ['a', 'b', 'c', ' ', 'd', 'e', 'f', 'g', 'h', 'i'] }

/-- A window 150 pixels wide: the text column is 26 pixels wide. -/
def narrowArgs : Args := { dialogue := ['a', 'b', 'c', 'd', 'e'], width := 150 }

/-- A one-character dialogue with a horizontal alignment that is none of `left`,
`center`, `right`. -/
def justifyArgs : Args := { dialogue := ['a'], halign := "justify" }

/-- The events of a run in which `SDL_QUIT` arrives between the third and the fourth
character, and nothing afterwards. -/
def quitAfterThree : List (List Event) := [[], [], [], [Event.quit]]

/-- The same events, followed later by a press of the Return key. -/
def quitThenReturn : List (List Event) :=
  [[], [], [], [Event.quit], [], [Event.keydown SDLK_RETURN]]

/-! ## Lemmas on wrapping -/

theorem wrapStep_eq (measure : List Char → Int) (maxW : Int)
    (st : List (List Char) × List Char) (c : Char) :
    wrapStep measure maxW st c
      = if measure (st.2 ++ [c]) > maxW ∧ st.2 ≠ [] then (st.1 ++ [st.2], [c])
        else (st.1, st.2 ++ [c]) := rfl

theorem wrapLines_eq (measure : List Char → Int) (maxW : Int) (text : List Char) :
    wrapLines measure maxW text
      = if (text.foldl (wrapStep measure maxW) ([], [])).2 ≠ [] then
          (text.foldl (wrapStep measure maxW) ([], [])).1
            ++ [(text.foldl (wrapStep measure maxW) ([], [])).2]
        else (text.foldl (wrapStep measure maxW) ([], [])).1 := rfl

theorem wrapStep_flatten (measure : List Char → Int) (maxW : Int)
    (st : List (List Char) × List Char) (c : Char) :
    (wrapStep measure maxW st c).1.flatten ++ (wrapStep measure maxW st c).2
      = st.1.flatten ++ st.2 ++ [c] := by
  rw [wrapStep_eq]
  split <;> simp

theorem wrapFold_flatten (measure : List Char → Int) (maxW : Int) (text : List Char) :
    ∀ st : List (List Char) × List Char,
      (text.foldl (wrapStep measure maxW) st).1.flatten
          ++ (text.foldl (wrapStep measure maxW) st).2
        = st.1.flatten ++ st.2 ++ text := by
  induction text with
  | nil => intro st; simp
  | cons c cs ih =>
    intro st
    rw [List.foldl_cons, ih, wrapStep_flatten]
    simp

theorem wrapLines_flatten (measure : List Char → Int) (maxW : Int) (text : List Char) :
    (wrapLines measure maxW text).flatten = text := by
  have h := wrapFold_flatten measure maxW text ([], [])
  rw [wrapLines_eq]
  split
  · simpa using h
  · rename_i hne
    have h2 : (text.foldl (wrapStep measure maxW) ([], [])).2 = [] := by
      simpa using hne
    rw [h2] at h
    simpa using h

/-- Invariant of the wrapping loop: a property `P` of lines that holds of every one-
character line and is kept when the loop extends a line holds of all lines closed so
far, and of the current line unless it is empty. -/
theorem wrapFold_inv (measure : List Char → Int) (maxW : Int) (P : List Char → Prop)
    (hone : ∀ c, P [c])
    (hext : ∀ cur c, cur ≠ [] → P cur → measure (cur ++ [c]) ≤ maxW → P (cur ++ [c]))
    (text : List Char) :
    ∀ st : List (List Char) × List Char,
      (∀ l ∈ st.1, l ≠ [] ∧ P l) → (st.2 ≠ [] → P st.2) →
      (∀ l ∈ (text.foldl (wrapStep measure maxW) st).1, l ≠ [] ∧ P l)
        ∧ ((text.foldl (wrapStep measure maxW) st).2 ≠ [] →
            P (text.foldl (wrapStep measure maxW) st).2) := by
  induction text with
  | nil => intro st h1 h2; exact ⟨h1, h2⟩
  | cons c cs ih =>
    intro st h1 h2
    rw [List.foldl_cons]
    apply ih
    · rw [wrapStep_eq]
      split
      · rename_i hc
        intro l hl
        simp only [List.mem_append, List.mem_singleton] at hl
        rcases hl with hl | hl
        · exact h1 l hl
        · subst hl; exact ⟨hc.2, h2 hc.2⟩
      · exact h1
    · rw [wrapStep_eq]
      split
      · intro _; exact hone c
      · rename_i hc
        intro _
        by_cases hcur : st.2 = []
        · simp only [hcur, List.nil_append]; exact hone c
        · have hle : measure (st.2 ++ [c]) ≤ maxW := by
            by_contra hgt
            exact hc ⟨by omega, hcur⟩
          exact hext st.2 c hcur (h2 hcur) hle

theorem wrapLines_inv (measure : List Char → Int) (maxW : Int) (P : List Char → Prop)
    (hone : ∀ c, P [c])
    (hext : ∀ cur c, cur ≠ [] → P cur → measure (cur ++ [c]) ≤ maxW → P (cur ++ [c]))
    (text : List Char) :
    ∀ l ∈ wrapLines measure maxW text, l ≠ [] ∧ P l := by
  have h := wrapFold_inv measure maxW P hone hext text ([], [])
    (by intro l hl; simp at hl) (by intro h; simp at h)
  rw [wrapLines_eq]
  split
  · rename_i hne
    intro l hl
    simp only [List.mem_append, List.mem_singleton] at hl
    rcases hl with hl | hl
    · exact h.1 l hl
    · subst hl; exact ⟨hne, h.2 hne⟩
  · exact h.1

theorem wrapLines_ne_nil (measure : List Char → Int) (maxW : Int) (text : List Char) :
    ∀ l ∈ wrapLines measure maxW text, l ≠ [] :=
  fun l hl => (wrapLines_inv measure maxW (fun _ => True) (fun _ => trivial)
    (fun _ _ _ _ _ => trivial) text l hl).1

/-- Every integer, negative ones included, is the `text_max_width` of a configuration. -/
theorem textMaxWidth_surjective (w : Int) : ∃ args : Args, textMaxWidth args = w :=
  ⟨{ width := w, padding := 0, iconwidth := 0 }, by simp [textMaxWidth]⟩

/-! ## Claims on wrapping -/

/-- C1: for every configuration (hence for every maximum width, negative ones and zero
included, see `textMaxWidth_surjective`), every width-measuring function and every text,
the lines returned by `wrapText`, concatenated in order with no separator, are exactly
the text. -/
theorem wrapText_flatten (args : Args) (measure : List Char → Int) (text : List Char) :
    (wrapText args measure text).flatten = text :=
  wrapLines_flatten measure (textMaxWidth args) text

/-- C2: every line returned by `wrapText` either is a single character or has a measured
width that does not exceed the maximum width. -/
theorem wrapText_line_fits (args : Args) (measure : List Char → Int) (text : List Char)
    (line : List Char) (hline : line ∈ wrapText args measure text) :
    line.length = 1 ∨ measure line ≤ textMaxWidth args :=
  (wrapLines_inv measure (textMaxWidth args)
    (fun l => l.length = 1 ∨ measure l ≤ textMaxWidth args)
    (fun _ => Or.inl rfl) (fun _ _ _ _ h => Or.inr h) text line hline).2

theorem wrapText_line_fits_witness :
    ['a', 'b'] ∈ wrapText narrowArgs charWidth10 narrowArgs.dialogue
      ∧ (['a', 'b'].length = 1 ∨ charWidth10 ['a', 'b'] ≤ textMaxWidth narrowArgs) :=
  ⟨by decide,
    wrapText_line_fits narrowArgs charWidth10 narrowArgs.dialogue ['a', 'b'] (by decide)⟩

/-- C8: wrapping a line that `wrapText` returned, alone, with the same configuration and
the same measuring function, returns that line and nothing else. -/
theorem wrapText_idempotent (args : Args) (measure : List Char → Int) (text : List Char)
    (line : List Char) (hline : line ∈ wrapText args measure text) :
    wrapText args measure line = [line] := by
  have h := wrapLines_inv measure (textMaxWidth args)
    (fun l => l.foldl (wrapStep measure (textMaxWidth args)) ([], []) = ([], l))
    (by intro c; simp [wrapStep_eq])
    (by
      intro cur c hcur hP hle
      rw [List.foldl_append, hP]
      simp only [List.foldl_cons, List.foldl_nil, wrapStep_eq]
      rw [if_neg]
      intro hc
      omega)
    text line hline
  unfold wrapText
  rw [wrapLines_eq, h.2]
  simp [h.1]

theorem wrapText_idempotent_witness :
    wrapText narrowArgs charWidth10 narrowArgs.dialogue = [['a', 'b'], ['c', 'd'], ['e']]
      ∧ wrapText narrowArgs charWidth10 ['c', 'd'] = [['c', 'd']] :=
  ⟨by decide,
    wrapText_idempotent narrowArgs charWidth10 narrowArgs.dialogue ['c', 'd'] (by decide)⟩

/-! ## Lemmas on the reveal loop -/

theorem runCells_nil (cycle : Cell → List Action) (evs : List (List Event)) :
    runCells cycle [] evs = ⟨[], false, evs⟩ := rfl

theorem runCells_cons (cycle : Cell → List Action) (cell : Cell) (cells : List Cell)
    (evs : List (List Event)) :
    runCells cycle (cell :: cells) evs
      = if (pollQuit (evs.headD [])).2.1 then
          ⟨(pollQuit (evs.headD [])).1, true, requeue (pollQuit (evs.headD [])).2.2 evs.tail⟩
        else
          ⟨(pollQuit (evs.headD [])).1 ++ cycle cell ++ (runCells cycle cells evs.tail).trace,
            (runCells cycle cells evs.tail).cancelled,
            (runCells cycle cells evs.tail).events⟩ := rfl

theorem runCells_append (cycle : Cell → List Action) (xs ys : List Cell) :
    ∀ evs : List (List Event),
      runCells cycle (xs ++ ys) evs
        = if (runCells cycle xs evs).cancelled then runCells cycle xs evs
          else
            ⟨(runCells cycle xs evs).trace
                ++ (runCells cycle ys (runCells cycle xs evs).events).trace,
              (runCells cycle ys (runCells cycle xs evs).events).cancelled,
              (runCells cycle ys (runCells cycle xs evs).events).events⟩ := by
  induction xs with
  | nil => intro evs; simp [runCells_nil]
  | cons x xs ih =>
    intro evs
    rw [List.cons_append, runCells_cons, runCells_cons, ih]
    generalize pollQuit (evs.headD []) = p
    by_cases hq : p.2.1 = true
    · simp [hq]
    · by_cases hc : (runCells cycle xs evs.tail).cancelled = true
      · simp [hq, hc]
      · simp [hq, hc, List.append_assoc]

theorem revealChars_eq_runCells (args : Args) (measure : List Char → Int)
    (fontHeight : Int) (lines : List (List Char)) (line_index : Nat) (line : List Char)
    (cs : List Char) :
    ∀ (rendered : List Char) (evs : List (List Event)),
      revealChars args measure fontHeight lines line_index (xBase args (measure line))
          (yBase args fontHeight lines.length + (line_index : Int) * (fontHeight + 5))
          cs rendered evs
        = runCells (cycleOf args measure fontHeight lines)
            (cellsChars line_index line cs rendered) evs := by
  induction cs with
  | nil => intro rendered evs; rfl
  | cons c cs ih =>
    intro rendered evs
    rw [cellsChars, runCells_cons, revealChars]
    simp only []
    rw [ih]
    generalize pollQuit (evs.headD []) = p
    by_cases hq : p.2.1 = true
    · simp [hq]
    · simp [hq, cycleOf, List.append_assoc]

theorem revealLines_eq_runCells (args : Args) (measure : List Char → Int)
    (fontHeight : Int) (lines : List (List Char)) (rest : List (List Char)) :
    ∀ (line_index : Nat) (evs : List (List Event)),
      revealLines args measure fontHeight lines line_index rest evs
        = runCells (cycleOf args measure fontHeight lines) (cellsLines line_index rest) evs := by
  induction rest with
  | nil => intro line_index evs; rfl
  | cons line rest ih =>
    intro line_index evs
    rw [cellsLines, runCells_append, revealLines]
    simp only []
    rw [revealChars_eq_runCells, ih]

/-- Every action of the polling loop is a poll. -/
theorem pollQuit_polls (q : List Event) :
    ∀ a ∈ (pollQuit q).1, ∃ r, a = Action.pollEvent r := by
  induction q with
  | nil => intro a ha; simp [pollQuit] at ha; exact ⟨none, ha⟩
  | cons e rest ih =>
    intro a ha
    rw [pollQuit] at ha
    split at ha
    · simp at ha; exact ⟨some e, ha⟩
    · simp only [List.mem_cons] at ha
      rcases ha with ha | ha
      · exact ⟨some e, ha⟩
      · exact ih a ha

theorem pollQuit_noquit (q : List Event) (h : Event.quit ∉ q) :
    (pollQuit q).2.1 = false ∧ Action.pollEvent (some Event.quit) ∉ (pollQuit q).1 := by
  induction q with
  | nil => simp [pollQuit]
  | cons e rest ih =>
    simp only [List.mem_cons, not_or] at h
    have hne : e ≠ Event.quit := fun he => h.1 he.symm
    rw [pollQuit, if_neg hne]
    refine ⟨(ih h.2).1, ?_⟩
    simp only [List.mem_cons, not_or]
    refine ⟨?_, (ih h.2).2⟩
    intro hc
    injection hc with hc
    injection hc with hc
    exact hne hc.symm

theorem pollQuit_quit (q : List Event) (h : Event.quit ∈ q) :
    (pollQuit q).2.1 = true ∧
      ∃ pre, (pollQuit q).1 = pre ++ [Action.pollEvent (some Event.quit)]
        ∧ Action.pollEvent (some Event.quit) ∉ pre := by
  induction q with
  | nil => simp at h
  | cons e rest ih =>
    by_cases he : e = Event.quit
    · rw [pollQuit, if_pos he]
      exact ⟨rfl, [], by simp [he], by simp⟩
    · have hr : Event.quit ∈ rest := by
        simp only [List.mem_cons] at h
        rcases h with h | h
        · exact absurd h.symm he
        · exact h
      rw [pollQuit, if_neg he]
      obtain ⟨h1, pre, h2, h3⟩ := ih hr
      refine ⟨h1, Action.pollEvent (some e) :: pre, by simp [h2], ?_⟩
      simp only [List.mem_cons, not_or]
      refine ⟨?_, h3⟩
      intro hc
      injection hc with hc
      injection hc with hc
      exact he hc.symm

theorem framesFrom_pollEvent (shown : List Char) (r : Option Event) (t : List Action) :
    framesFrom shown (Action.pollEvent r :: t) = framesFrom shown t := rfl

theorem framesFrom_drawIcon (shown : List Char) (x y w h : Int) (t : List Action) :
    framesFrom shown (Action.drawIcon x y w h :: t) = framesFrom shown t := rfl

theorem framesFrom_playBlip (shown : List Char) (t : List Action) :
    framesFrom shown (Action.playBlip :: t) = framesFrom shown t := rfl

theorem framesFrom_sleep (shown : List Char) (d : F64) (t : List Action) :
    framesFrom shown (Action.sleep d :: t) = framesFrom shown t := rfl

theorem framesFrom_drawBackground (shown : List Char) (t : List Action) :
    framesFrom shown (Action.drawBackground :: t) = framesFrom [] t := rfl

theorem framesFrom_drawText (shown : List Char) (x y : Int) (s : List Char)
    (t : List Action) :
    framesFrom shown (Action.drawText x y s :: t) = framesFrom (shown ++ s) t := rfl

theorem framesFrom_present (shown : List Char) (t : List Action) :
    framesFrom shown (Action.present :: t) = shown :: framesFrom shown t := rfl

theorem framesFrom_polls (l : List Action) (hl : IsPolls l) (shown : List Char)
    (t : List Action) : framesFrom shown (l ++ t) = framesFrom shown t := by
  induction l with
  | nil => rfl
  | cons a l ih =>
    obtain ⟨r, hr⟩ := hl a (List.mem_cons_self _ _)
    subst hr
    rw [List.cons_append, framesFrom_pollEvent]
    exact ih (fun b hb => hl b (List.mem_cons_of_mem _ hb))

theorem count_present_polls (l : List Action) (hl : IsPolls l) :
    l.count Action.present = 0 := by
  rw [List.count_eq_zero]
  intro hmem
  obtain ⟨r, hr⟩ := hl _ hmem
  cases hr

theorem audioDelays_polls (l : List Action) (hl : IsPolls l) : audioDelays l = [] := by
  unfold audioDelays
  rw [List.filter_eq_nil_iff]
  intro a ha
  obtain ⟨r, hr⟩ := hl a ha
  subst hr
  simp

theorem audioDelays_append (l t : List Action) :
    audioDelays (l ++ t) = audioDelays l ++ audioDelays t := by
  unfold audioDelays
  exact List.filter_append _ _

theorem framesFrom_drawPrev (args : Args) (measure : List Char → Int) (fontHeight : Int)
    (lines : List (List Char)) (n : Nat) (shown : List Char) (t : List Action) :
    framesFrom shown (drawPrevLines args measure fontHeight lines n ++ t)
      = framesFrom (shown ++ ((List.range n).map fun j => lines.getD j []).flatten) t := by
  unfold drawPrevLines
  induction n generalizing t with
  | zero => simp
  | succ n ih =>
    rw [List.range_succ, List.map_append, List.map_append, List.append_assoc, ih]
    simp [framesFrom_drawText, List.append_assoc]

theorem count_present_drawPrev (args : Args) (measure : List Char → Int)
    (fontHeight : Int) (lines : List (List Char)) (n : Nat) :
    (drawPrevLines args measure fontHeight lines n).count Action.present = 0 := by
  rw [List.count_eq_zero]
  unfold drawPrevLines
  simp

theorem audioDelays_drawPrev (args : Args) (measure : List Char → Int)
    (fontHeight : Int) (lines : List (List Char)) (n : Nat) :
    audioDelays (drawPrevLines args measure fontHeight lines n) = [] := by
  unfold audioDelays drawPrevLines
  rw [List.filter_eq_nil_iff]
  simp

theorem count_present_cycleOf (args : Args) (measure : List Char → Int)
    (fontHeight : Int) (lines : List (List Char)) (cell : Cell) :
    (cycleOf args measure fontHeight lines cell).count Action.present = 1 := by
  unfold cycleOf
  simp only [List.count_append, count_present_drawPrev]
  by_cases hc : cell.c = ' ' <;> simp [hc, drawIcon, List.count_cons]

theorem audioDelays_cycleOf (args : Args) (measure : List Char → Int)
    (fontHeight : Int) (lines : List (List Char)) (cell : Cell) :
    audioDelays (cycleOf args measure fontHeight lines cell) = blipAndDelay args cell.c := by
  unfold cycleOf blipAndDelay
  simp only [audioDelays_append, audioDelays_drawPrev]
  by_cases hc : cell.c = ' ' <;> simp [hc, drawIcon, audioDelays]

theorem framesFrom_cycleOf (args : Args) (measure : List Char → Int)
    (fontHeight : Int) (lines : List (List Char)) (cell : Cell) (shown : List Char)
    (t : List Action) :
    framesFrom shown (cycleOf args measure fontHeight lines cell ++ t)
      = shownOf lines cell :: framesFrom (shownOf lines cell) t := by
  have e : cycleOf args measure fontHeight lines cell ++ t
      = Action.drawBackground :: drawIcon args
          :: (drawPrevLines args measure fontHeight lines cell.line_index
            ++ (Action.drawText (xBase args (measure cell.line))
                  (yBase args fontHeight lines.length
                    + (cell.line_index : Int) * (fontHeight + 5)) cell.rendered
                :: Action.present
                :: ((if cell.c ≠ ' ' then [Action.playBlip] else [])
                  ++ Action.sleep (getDelay args cell.c) :: t))) := by
    simp [cycleOf, List.append_assoc]
  rw [e, framesFrom_drawBackground, drawIcon, framesFrom_drawIcon, framesFrom_drawPrev,
    framesFrom_drawText, framesFrom_present, List.nil_append]
  unfold shownOf
  by_cases hc : cell.c = ' '
  · simp [hc, framesFrom_sleep]
  · simp [hc, framesFrom_sleep, framesFrom_playBlip]

theorem quit_not_mem_cycleOf (args : Args) (measure : List Char → Int)
    (fontHeight : Int) (lines : List (List Char)) (cell : Cell) :
    Action.pollEvent (some Event.quit) ∉ cycleOf args measure fontHeight lines cell := by
  unfold cycleOf drawPrevLines
  by_cases hc : cell.c = ' ' <;> simp [hc, drawIcon]

theorem getD_zero_eq_headD (evs : List (List Event)) : evs.getD 0 [] = evs.headD [] := by
  cases evs <;> rfl

theorem tail_getD (evs : List (List Event)) (i : Nat) :
    evs.tail.getD i [] = evs.getD (i + 1) [] := by
  cases evs <;> simp

/-- What a run of the single loop does when the first `k` polling loops meet no
`SDL_QUIT` and, if there are more than `k` iterations, the next one does. -/
theorem runCells_obs (args : Args) (measure : List Char → Int) (fontHeight : Int)
    (lines : List (List Char)) (cells : List Cell) :
    ∀ (k : Nat) (evs : List (List Event)), k ≤ cells.length →
      (∀ i, i < k → Event.quit ∉ evs.getD i []) →
      (k < cells.length → Event.quit ∈ evs.getD k []) →
      (runCells (cycleOf args measure fontHeight lines) cells evs).cancelled
          = decide (k < cells.length)
        ∧ (runCells (cycleOf args measure fontHeight lines) cells evs).trace.count
            Action.present = k
        ∧ audioDelays (runCells (cycleOf args measure fontHeight lines) cells evs).trace
            = (cells.take k).flatMap (fun cell => blipAndDelay args cell.c)
        ∧ (∀ shown,
            framesFrom shown (runCells (cycleOf args measure fontHeight lines) cells evs).trace
              = (cells.take k).map (shownOf lines))
        ∧ (k < cells.length →
            ∃ pre, (runCells (cycleOf args measure fontHeight lines) cells evs).trace
                = pre ++ [Action.pollEvent (some Event.quit)]
              ∧ Action.pollEvent (some Event.quit) ∉ pre) := by
  induction cells with
  | nil =>
    intro k evs hk _ _
    have hk0 : k = 0 := by simpa using hk
    subst hk0
    simp [runCells_nil, audioDelays, framesFrom]
  | cons cell cs ih =>
    intro k evs hk hno hq
    rw [runCells_cons]
    have hpolls : IsPolls (pollQuit (evs.headD [])).1 := pollQuit_polls _
    cases k with
    | zero =>
      have hq0 : Event.quit ∈ evs.headD [] := by
        rw [← getD_zero_eq_headD]; exact hq (by simp)
      obtain ⟨h1, pre, h2, h3⟩ := pollQuit_quit _ hq0
      rw [if_pos h1]
      refine ⟨by simp, count_present_polls _ hpolls, ?_, ?_, ?_⟩
      · rw [audioDelays_polls _ hpolls]; rfl
      · intro shown
        have := framesFrom_polls _ hpolls shown []
        rw [List.append_nil] at this
        rw [this]
        simp [framesFrom]
      · intro _
        exact ⟨pre, h2, h3⟩
    | succ k =>
      have hn0 : Event.quit ∉ evs.headD [] := by
        rw [← getD_zero_eq_headD]; exact hno 0 (by omega)
      obtain ⟨h1, h1q⟩ := pollQuit_noquit _ hn0
      rw [if_neg (by rw [h1]; exact Bool.false_ne_true)]
      have hk' : k ≤ cs.length := by simpa using hk
      obtain ⟨i1, i2, i3, i4, i5⟩ := ih k evs.tail hk'
        (by intro i hi; rw [tail_getD]; exact hno (i + 1) (by omega))
        (by intro hlt; rw [tail_getD]; exact hq (by simpa using hlt))
      refine ⟨?_, ?_, ?_, ?_, ?_⟩
      · simp [i1]
      · simp only [List.count_append, count_present_polls _ hpolls, count_present_cycleOf, i2]
        omega
      · simp only [audioDelays_append, audioDelays_polls _ hpolls, audioDelays_cycleOf, i3]
        simp
      · intro shown
        rw [List.append_assoc, framesFrom_polls _ hpolls, framesFrom_cycleOf, i4]
        simp
      · intro hlt
        obtain ⟨pre, e1, e2⟩ := i5 (by simpa using hlt)
        refine ⟨(pollQuit (evs.headD [])).1
            ++ cycleOf args measure fontHeight lines cell ++ pre, ?_, ?_⟩
        · simp only [e1, List.append_assoc]
        · simp only [List.mem_append, not_or]
          exact ⟨⟨h1q, quit_not_mem_cycleOf _ _ _ _ _⟩, e2⟩

/-! ## Lemmas on the list of iterations -/

theorem inits_eq_nil_cons_tail (l : List Char) : l.inits = [] :: l.inits.tail := by
  cases l <;> simp

theorem inits_take (l : List Char) : ∀ k, (l.take k).inits = l.inits.take (k + 1) := by
  induction l with
  | nil => intro k; simp
  | cons a l ih =>
    intro k
    cases k with
    | zero => simp
    | succ k => simp [ih k, List.map_take]

theorem inits_tail_take (l : List Char) (k : Nat) :
    (l.take k).inits.tail = l.inits.tail.take k := by
  rw [inits_take]
  conv_lhs => rw [inits_eq_nil_cons_tail l]
  simp

theorem range_map_getD (l : List (List Char)) :
    ∀ n, n ≤ l.length → ((List.range n).map fun j => l.getD j []) = l.take n := by
  intro n
  induction n with
  | zero => intro _; simp
  | succ n ih =>
    intro hn
    have hlt : n < l.length := by omega
    rw [List.range_succ, List.map_append, ih (by omega), List.take_succ]
    simp [List.getD_eq_getElem?_getD, List.getElem?_eq_getElem hlt]

theorem flatMap_cell_c (g : Char → List Action) (l : List Cell) :
    l.flatMap (fun cell => g cell.c) = (l.map fun cell => cell.c).flatMap g := by
  induction l with
  | nil => rfl
  | cons a l ih => simp [List.flatMap_cons, ih]

theorem cellsChars_map_c (i : Nat) (line : List Char) (cs : List Char) :
    ∀ rendered, (cellsChars i line cs rendered).map (fun cell => cell.c) = cs := by
  induction cs with
  | nil => intro r; rfl
  | cons c cs ih => intro r; simp [cellsChars, ih]

theorem cellsLines_map_c (rest : List (List Char)) :
    ∀ i, (cellsLines i rest).map (fun cell => cell.c) = rest.flatten := by
  induction rest with
  | nil => intro i; rfl
  | cons line rest ih => intro i; simp [cellsLines, cellsChars_map_c, ih]

theorem cellsChars_map_shownOf (lines : List (List Char)) (i : Nat) (line : List Char)
    (cs : List Char) :
    ∀ rendered,
      (cellsChars i line cs rendered).map (shownOf lines)
        = cs.inits.tail.map fun t =>
            ((List.range i).map fun j => lines.getD j []).flatten ++ (rendered ++ t) := by
  induction cs with
  | nil => intro r; simp [cellsChars]
  | cons c cs ih =>
    intro r
    rw [cellsChars, List.map_cons, ih, List.inits_cons, List.tail_cons]
    conv_rhs => rw [inits_eq_nil_cons_tail cs]
    simp [shownOf, List.append_assoc]
    rfl

theorem cellsLines_map_shownOf (rest : List (List Char)) :
    ∀ pre : List (List Char),
      (cellsLines pre.length rest).map (shownOf (pre ++ rest))
        = rest.flatten.inits.tail.map fun t => pre.flatten ++ t := by
  induction rest with
  | nil => intro pre; simp [cellsLines]
  | cons line rest ih =>
    intro pre
    rw [cellsLines, List.map_append, cellsChars_map_shownOf]
    have h := ih (pre ++ [line])
    rw [List.length_append, List.length_singleton, List.append_assoc,
      List.singleton_append] at h
    rw [h, range_map_getD _ _ (by simp), List.take_left, List.flatten_cons,
      List.inits_append]
    conv_rhs => rw [inits_eq_nil_cons_tail line]
    simp [List.append_assoc]
    rfl

/-- What `renderDialogue` does when the first `k` polling loops meet no `SDL_QUIT` and,
if the dialogue has more than `k` characters, the next one does. -/
theorem renderDialogue_obs (args : Args) (measure : List Char → Int) (fontHeight : Int)
    (evs : List (List Event)) (k : Nat) (hk : k ≤ args.dialogue.length)
    (hno : ∀ i, i < k → Event.quit ∉ evs.getD i [])
    (hq : k < args.dialogue.length → Event.quit ∈ evs.getD k []) :
    (renderDialogue args measure fontHeight evs).cancelled
        = decide (k < args.dialogue.length)
      ∧ (renderDialogue args measure fontHeight evs).trace.count Action.present = k + 1
      ∧ audioDelays (renderDialogue args measure fontHeight evs).trace
          = (args.dialogue.take k).flatMap (blipAndDelay args)
      ∧ frames (renderDialogue args measure fontHeight evs).trace
          = (args.dialogue.take k).inits
      ∧ (k < args.dialogue.length →
          ∃ pre, (renderDialogue args measure fontHeight evs).trace
              = pre ++ [Action.pollEvent (some Event.quit)]
            ∧ Action.pollEvent (some Event.quit) ∉ pre) := by
  have hflat : (wrapText args measure args.dialogue).flatten = args.dialogue :=
    wrapLines_flatten measure (textMaxWidth args) args.dialogue
  have hc := cellsLines_map_c (wrapText args measure args.dialogue) 0
  rw [hflat] at hc
  have hlen : (cellsLines 0 (wrapText args measure args.dialogue)).length
      = args.dialogue.length := by
    have := congrArg List.length hc
    simpa using this
  have hs := cellsLines_map_shownOf (wrapText args measure args.dialogue) []
  simp only [List.length_nil, List.nil_append, List.flatten_nil, hflat, List.map_id'] at hs
  obtain ⟨o1, o2, o3, o4, o5⟩ := runCells_obs args measure fontHeight
    (wrapText args measure args.dialogue)
    (cellsLines 0 (wrapText args measure args.dialogue)) k evs (by omega) hno
    (by intro h; exact hq (by omega))
  rw [hlen] at o1 o5
  unfold renderDialogue
  simp only [revealLines_eq_runCells]
  refine ⟨o1, ?_, ?_, ?_, ?_⟩
  · rw [List.count_append, o2]
    simp [drawIcon, List.count_cons]
    omega
  · rw [audioDelays_append, o3]
    rw [flatMap_cell_c, List.map_take, hc]
    simp [audioDelays, drawIcon]
  · unfold frames
    rw [List.cons_append, List.cons_append, List.cons_append, List.nil_append,
      framesFrom_drawBackground, drawIcon, framesFrom_drawIcon, framesFrom_present, o4,
      List.map_take, hs, ← inits_tail_take, ← inits_eq_nil_cons_tail]
  · intro hlt
    obtain ⟨pre, e1, e2⟩ := o5 hlt
    refine ⟨[Action.drawBackground, drawIcon args, Action.present] ++ pre, ?_, ?_⟩
    · rw [e1, List.append_assoc]
    · simp only [List.mem_append, not_or]
      exact ⟨by simp [drawIcon], e2⟩

theorem count_playBlip_flatMap (args : Args) (l : List Char) :
    (l.flatMap (blipAndDelay args)).count Action.playBlip
      = (l.filter fun c => c ≠ ' ').length := by
  induction l with
  | nil => rfl
  | cons c cs ih =>
    rw [List.flatMap_cons, List.count_append, ih]
    by_cases hc : c = ' '
    · simp [hc, blipAndDelay, List.count_cons]
    · simp [hc, blipAndDelay, List.count_cons]
      omega

theorem count_playBlip_audioDelays (l : List Action) :
    (audioDelays l).count Action.playBlip = l.count Action.playBlip := by
  unfold audioDelays
  exact List.count_filter (by rfl)

theorem mem_runCells_trace (cycle : Cell → List Action) (cells : List Cell) :
    ∀ (evs : List (List Event)) (a : Action), a ∈ (runCells cycle cells evs).trace →
      (∃ r, a = Action.pollEvent r) ∨ ∃ cell ∈ cells, a ∈ cycle cell := by
  induction cells with
  | nil => intro evs a ha; simp [runCells_nil] at ha
  | cons cell cs ih =>
    intro evs a ha
    rw [runCells_cons] at ha
    split at ha
    · exact Or.inl (pollQuit_polls _ a ha)
    · simp only [List.mem_append] at ha
      rcases ha with (ha | ha) | ha
      · exact Or.inl (pollQuit_polls _ a ha)
      · exact Or.inr ⟨cell, List.mem_cons_self _ _, ha⟩
      · rcases ih evs.tail a ha with h | ⟨c', hc', hm⟩
        · exact Or.inl h
        · exact Or.inr ⟨c', List.mem_cons_of_mem _ hc', hm⟩

theorem mem_cellsChars (i : Nat) (line : List Char) (cs : List Char) :
    ∀ (rendered : List Char) (cell : Cell), cell ∈ cellsChars i line cs rendered →
      cell.line_index = i ∧ cell.line = line ∧ cell.rendered <+: rendered ++ cs := by
  induction cs with
  | nil => intro r cell h; simp [cellsChars] at h
  | cons c cs ih =>
    intro r cell h
    rw [cellsChars, List.mem_cons] at h
    rcases h with h | h
    · subst h
      exact ⟨rfl, rfl, cs, by simp⟩
    · have := ih (r ++ [c]) cell h
      simpa using this

theorem mem_cellsLines (rest : List (List Char)) :
    ∀ (i : Nat) (cell : Cell), cell ∈ cellsLines i rest →
      ∃ j, rest[j]? = some cell.line ∧ cell.line_index = i + j
        ∧ cell.rendered <+: cell.line := by
  induction rest with
  | nil => intro i cell h; simp [cellsLines] at h
  | cons line rest ih =>
    intro i cell h
    rw [cellsLines, List.mem_append] at h
    rcases h with h | h
    · obtain ⟨h1, h2, h3⟩ := mem_cellsChars i line line [] cell h
      refine ⟨0, by simp [h2], by simp [h1], ?_⟩
      rw [h2]; simpa using h3
    · obtain ⟨j, h1, h2, h3⟩ := ih (i + 1) cell h
      exact ⟨j + 1, by simpa using h1, by omega, h3⟩

/-- Where `renderDialogue` draws text: every text drawn is a prefix of a wrapped line,
at the `x` of `xBase` for the width of the whole line and on the row of that line. -/
theorem mem_renderDialogue_drawText (args : Args) (measure : List Char → Int)
    (fontHeight : Int) (evs : List (List Event)) (x y : Int) (s : List Char)
    (h : Action.drawText x y s ∈ (renderDialogue args measure fontHeight evs).trace) :
    ∃ (i : Nat) (line : List Char),
      (wrapText args measure args.dialogue)[i]? = some line ∧ s <+: line
        ∧ x = xBase args (measure line)
        ∧ y = yBase args fontHeight (wrapText args measure args.dialogue).length
                + (i : Int) * (fontHeight + 5) := by
  unfold renderDialogue at h
  simp only [revealLines_eq_runCells, List.mem_append] at h
  rcases h with h | h
  · simp [drawIcon] at h
  · rcases mem_runCells_trace _ _ _ _ h with ⟨r, hr⟩ | ⟨cell, hcell, hm⟩
    · cases hr
    · obtain ⟨j, h1, h2, h3⟩ := mem_cellsLines _ 0 cell hcell
      have hj : j < (wrapText args measure args.dialogue).length := by
        rcases List.getElem?_eq_some_iff.1 h1 with ⟨hlt, _⟩
        exact hlt
      have hidx : cell.line_index = j := by omega
      unfold cycleOf drawPrevLines at hm
      simp only [List.mem_append, List.mem_cons, List.mem_map, List.mem_range,
        List.mem_singleton, List.not_mem_nil, or_false] at hm
      rcases hm with (((hm | hm) | hm) | hm) | hm
      · rcases hm with hm | hm
        · cases hm
        · simp [drawIcon] at hm
      · obtain ⟨p, hp, hpe⟩ := hm
        have hp' : p < (wrapText args measure args.dialogue).length := by omega
        injection hpe with e1 e2 e3
        refine ⟨p, (wrapText args measure args.dialogue).getD p [], ?_, ?_, e1.symm, e2.symm⟩
        · simp [List.getD_eq_getElem?_getD, List.getElem?_eq_getElem hp']
        · rw [e3]
      · rcases hm with hm | hm
        · injection hm with e1 e2 e3
          refine ⟨j, cell.line, h1, ?_, e1, ?_⟩
          · rw [e3]; exact h3
          · rw [e2, hidx]
        · cases hm
      · by_cases hc : cell.c = ' ' <;> simp [hc] at hm
      · cases hm

/-! ## Claims on the reveal loop -/

/-- C3: in a reveal during which no polling loop meets `SDL_QUIT`, `renderDialogue`
is not cancelled and presents one frame per character of the dialogue, spaces
included, after the single frame drawn on entry: the trace holds `length + 1`
presents, and the frames show, in order, the empty text and then each non-empty
prefix of the dialogue. -/
theorem renderDialogue_full_reveal (args : Args) (measure : List Char → Int)
    (fontHeight : Int) (evs : List (List Event))
    (hno : ∀ i, i < args.dialogue.length → Event.quit ∉ evs.getD i []) :
    (renderDialogue args measure fontHeight evs).cancelled = false
      ∧ (renderDialogue args measure fontHeight evs).trace.count Action.present
          = args.dialogue.length + 1
      ∧ frames (renderDialogue args measure fontHeight evs).trace = args.dialogue.inits := by
  obtain ⟨h1, h2, _, h4, _⟩ := renderDialogue_obs args measure fontHeight evs
    args.dialogue.length (Nat.le_refl _) hno (fun h => absurd h (Nat.lt_irrefl _))
  rw [List.take_length] at h4
  exact ⟨by simpa using h1, h2, h4⟩

theorem renderDialogue_full_reveal_witness :
    (renderDialogue hiOkArgs charWidth10 24 []).trace.count Action.present = 7 + 1 :=
  (renderDialogue_full_reveal hiOkArgs charWidth10 24 [] (by intro i _; simp)).2.1

/-- C4: in a reveal during which no polling loop meets `SDL_QUIT`, the audio and delay
actions of `renderDialogue` are, character by character, one blip followed by the delay
of the character when it is not a space, and the delay alone when it is a space; the
number of blips is the number of characters of the dialogue that are not spaces. -/
theorem renderDialogue_blips (args : Args) (measure : List Char → Int)
    (fontHeight : Int) (evs : List (List Event))
    (hno : ∀ i, i < args.dialogue.length → Event.quit ∉ evs.getD i []) :
    audioDelays (renderDialogue args measure fontHeight evs).trace
        = args.dialogue.flatMap (fun c =>
            (if c ≠ ' ' then [Action.playBlip] else []) ++ [Action.sleep (getDelay args c)])
      ∧ (renderDialogue args measure fontHeight evs).trace.count Action.playBlip
          = (args.dialogue.filter fun c => c ≠ ' ').length := by
  obtain ⟨_, _, h3, _, _⟩ := renderDialogue_obs args measure fontHeight evs
    args.dialogue.length (Nat.le_refl _) hno (fun h => absurd h (Nat.lt_irrefl _))
  rw [List.take_length] at h3
  refine ⟨h3, ?_⟩
  rw [← count_playBlip_audioDelays, h3, count_playBlip_flatMap]

theorem renderDialogue_blips_witness :
    (renderDialogue hiOkArgs charWidth10 24 []).trace.count Action.playBlip = 6 :=
  (renderDialogue_blips hiOkArgs charWidth10 24 [] (by intro i _; simp)).2

/-- C5: when the first `k` polling loops meet no `SDL_QUIT` and the one that precedes
the reveal of character `k + 1` does, `renderDialogue` is cancelled having presented
exactly `k` frames after the one drawn on entry, the last of which shows the first `k`
characters; its blips and delays are those of the first `k` characters (a blip for each
one that is not a space); and the poll that delivered `SDL_QUIT` is its last action. -/
theorem renderDialogue_cancelled (args : Args) (measure : List Char → Int)
    (fontHeight : Int) (evs : List (List Event)) (k : Nat)
    (hk : k < args.dialogue.length)
    (hno : ∀ i, i < k → Event.quit ∉ evs.getD i [])
    (hq : Event.quit ∈ evs.getD k []) :
    (renderDialogue args measure fontHeight evs).cancelled = true
      ∧ (renderDialogue args measure fontHeight evs).trace.count Action.present = k + 1
      ∧ frames (renderDialogue args measure fontHeight evs).trace
          = (args.dialogue.take k).inits
      ∧ audioDelays (renderDialogue args measure fontHeight evs).trace
          = (args.dialogue.take k).flatMap (fun c =>
              (if c ≠ ' ' then [Action.playBlip] else [])
                ++ [Action.sleep (getDelay args c)])
      ∧ (renderDialogue args measure fontHeight evs).trace.count Action.playBlip
          = ((args.dialogue.take k).filter fun c => c ≠ ' ').length
      ∧ ∃ pre, (renderDialogue args measure fontHeight evs).trace
            = pre ++ [Action.pollEvent (some Event.quit)]
          ∧ Action.pollEvent (some Event.quit) ∉ pre := by
  obtain ⟨h1, h2, h3, h4, h5⟩ := renderDialogue_obs args measure fontHeight evs k
    (Nat.le_of_lt hk) hno (fun _ => hq)
  refine ⟨by simpa [hk] using h1, h2, h4, h3, ?_, h5 hk⟩
  rw [← count_playBlip_audioDelays, h3, count_playBlip_flatMap]

theorem renderDialogue_cancelled_witness :
    (renderDialogue tenCharArgs charWidth10 24 quitAfterThree).trace.count Action.present
        = 3 + 1
      ∧ frames (renderDialogue tenCharArgs charWidth10 24 quitAfterThree).trace
          = [[], ['a'], ['a', 'b'], ['a', 'b', 'c']] :=
  have h := renderDialogue_cancelled tenCharArgs charWidth10 24 quitAfterThree 3
    (by decide) (by decide) (by decide)
  ⟨h.2.1, h.2.2.1⟩

/-- C6: on the ten-character dialogue, with `SDL_QUIT` met by the polling loop before
the fourth character and no event afterwards, the reveal is cancelled and `main` then
runs `waitForExit`, which never returns: `main` has no exit code. When a press of the
Return key follows, the trace of `main` goes on, after that of the cancelled reveal,
with the polls and the 16 ms sleeps of `waitForExit`, and `main` returns 0 only then. -/
theorem main_waits_after_cancelled_reveal :
    (renderDialogue tenCharArgs charWidth10 24 quitAfterThree).cancelled = true
      ∧ (main (some tenCharArgs) true true charWidth10 24 quitAfterThree).2 = none
      ∧ (renderDialogue tenCharArgs charWidth10 24 quitThenReturn).cancelled = true
      ∧ main (some tenCharArgs) true true charWidth10 24 quitThenReturn
          = ((renderDialogue tenCharArgs charWidth10 24 quitThenReturn).trace
              ++ [Action.pollEvent none, Action.sleepMs 16,
                  Action.pollEvent (some (Event.keydown SDLK_RETURN)),
                  Action.pollEvent none, Action.sleepMs 16],
             some 0) := by
  refine ⟨by decide, by decide, by decide, ?_⟩
  have h : (renderDialogue tenCharArgs charWidth10 24 quitThenReturn).events
      = [[], [Event.keydown SDLK_RETURN]] := by decide
  have hw : waitForExit [[], [Event.keydown SDLK_RETURN]]
      = ([Action.pollEvent none, Action.sleepMs 16,
          Action.pollEvent (some (Event.keydown SDLK_RETURN)),
          Action.pollEvent none, Action.sleepMs 16], true) := by decide
  simp [main, h, hw]

/-! ## Claims on the layout -/

/-- C7 (amended): every text that `renderDialogue` draws is a prefix of one of the
wrapped lines, drawn on the row of that line and at an `x` that depends on `halign` and
on the measured width of the whole line: `text_x_start` (`padding + iconwidth + padding`
when the icon side is `left`, else `padding`) for `left`, `(width - lineWidth) / 2` for
`center`, and `width - lineWidth - padding` for `right` and for every other value. -/
theorem renderDialogue_text_x (args : Args) (measure : List Char → Int)
    (fontHeight : Int) (evs : List (List Event)) (x y : Int) (s : List Char)
    (h : Action.drawText x y s ∈ (renderDialogue args measure fontHeight evs).trace) :
    ∃ (i : Nat) (line : List Char),
      (wrapText args measure args.dialogue)[i]? = some line ∧ s <+: line
        ∧ y = yBase args fontHeight (wrapText args measure args.dialogue).length
                + (i : Int) * (fontHeight + 5)
        ∧ (args.halign = "left" →
            x = if args.side = "left" then args.padding + args.iconwidth + args.padding
                else args.padding)
        ∧ (args.halign = "center" → x = (args.width - measure line).tdiv 2)
        ∧ (args.halign = "right" → x = args.width - measure line - args.padding)
        ∧ (args.halign ≠ "left" → args.halign ≠ "center" →
            x = args.width - measure line - args.padding) := by
  obtain ⟨i, line, h1, h2, h3, h4⟩ :=
    mem_renderDialogue_drawText args measure fontHeight evs x y s h
  refine ⟨i, line, h1, h2, h4, ?_, ?_, ?_, ?_⟩
  · intro hl; rw [h3, xBase, if_pos hl, textXStart]
  · intro hc
    have hl : args.halign ≠ "left" := by rw [hc]; decide
    rw [h3, xBase, if_neg hl, if_pos hc]
  · intro hr
    have hl : args.halign ≠ "left" := by rw [hr]; decide
    have hc : args.halign ≠ "center" := by rw [hr]; decide
    rw [h3, xBase, if_neg hl, if_neg hc]
  · intro hl hc
    rw [h3, xBase, if_neg hl, if_neg hc]

theorem renderDialogue_text_x_witness :
    ∃ (i : Nat) (line : List Char),
      (wrapText justifyArgs charWidth10 justifyArgs.dialogue)[i]? = some line
        ∧ ['a'] <+: line
        ∧ (556 : Int) = yBase justifyArgs 24
              (wrapText justifyArgs charWidth10 justifyArgs.dialogue).length
            + (i : Int) * (24 + 5)
        ∧ (justifyArgs.halign = "left" →
            (770 : Int) = if justifyArgs.side = "left" then
                justifyArgs.padding + justifyArgs.iconwidth + justifyArgs.padding
              else justifyArgs.padding)
        ∧ (justifyArgs.halign = "center" →
            (770 : Int) = (justifyArgs.width - charWidth10 line).tdiv 2)
        ∧ (justifyArgs.halign = "right" →
            (770 : Int) = justifyArgs.width - charWidth10 line - justifyArgs.padding)
        ∧ (justifyArgs.halign ≠ "left" → justifyArgs.halign ≠ "center" →
            (770 : Int) = justifyArgs.width - charWidth10 line - justifyArgs.padding) :=
  renderDialogue_text_x justifyArgs charWidth10 24 [] 770 556 ['a'] (by decide)

/-- C7 (as stated, refuted): with `halign = "justify"`, which is none of `left`,
`center`, `right`, the one-character line `a` of width 10 is drawn at
`x = 800 - 10 - 20 = 770`, where `right` puts it, and not at `text_x_start = 104`,
where `left` puts it. -/
theorem halign_unrecognized_not_left :
    justifyArgs.halign ≠ "left" ∧ justifyArgs.halign ≠ "center"
      ∧ justifyArgs.halign ≠ "right"
      ∧ Action.drawText 770 556 ['a'] ∈ (renderDialogue justifyArgs charWidth10 24 []).trace
      ∧ textXStart justifyArgs = 104
      ∧ ¬ (∀ x y s,
            Action.drawText x y s ∈ (renderDialogue justifyArgs charWidth10 24 []).trace →
            x = textXStart justifyArgs) := by
  refine ⟨by decide, by decide, by decide, by decide, by decide, ?_⟩
  intro hall
  have := hall 770 556 ['a'] (by decide)
  revert this
  decide

/-- The literal `0.05` is the binary64 value `3602879701896397 * 2^-56`, which is above
`1/20` by `2^-56 / 5`, less than half a unit in the last place (`2^-58`); the literal
`0.15` is `5404319552844595 * 2^-55`, below `3/20` by `2^-55 / 5`, less than half a unit
in the last place (`2^-56`). -/
theorem ofRat_literals :
    F64.ofRat false 5 100 = F64.fin false 3602879701896397 (-56)
      ∧ 20 * 3602879701896397 = 2 ^ 56 + 4
      ∧ F64.ofRat false 15 100 = F64.fin false 5404319552844595 (-55)
      ∧ 20 * 5404319552844595 + 4 = 3 * 2 ^ 55
      ∧ F64.ofRat false 25 100 = F64.fin false 1 (-2)
      ∧ F64.ofRat false 3 1 = F64.fin false 3 0
      ∧ F64.ofRat false 5 1 = F64.fin false 5 0 := by
  refine ⟨?_, ?_, ?_, ?_, ?_, ?_, ?_⟩ <;> decide!

/-- The exact product `3 * 3602879701896397 * 2^-56` lies half way between the two
neighbouring binary64 values `5404319552844595 * 2^-55` (which is `0.15`) and
`5404319552844596 * 2^-55`; the tie goes to the even significand, the upper one, which
is `1351079888211149 * 2^-53`. -/
theorem mul_0_05_3 :
    F64.mul (F64.ofRat false 5 100) (F64.ofRat false 3 1)
        = F64.fin false 1351079888211149 (-53)
      ∧ 2 * (3 * 3602879701896397) = 2 * 5404319552844595 + 2 * 5404319552844596
      ∧ 1351079888211149 * 2 ^ 2 = 5404319552844596
      ∧ F64.ofRat false 15000000000000002 100000000000000000
          = F64.fin false 1351079888211149 (-53) := by
  refine ⟨?_, ?_, ?_, ?_⟩ <;> decide!

theorem mul_0_05_5 :
    F64.mul (F64.ofRat false 5 100) (F64.ofRat false 5 1) = F64.ofRat false 25 100 := by
  decide!

/-- C9 (amended): `getDelay c` is the binary64 product `speed * delayheavy` when `c` is
one of `.`, `!`, `?`, the product `speed * delaylight` when `c` is one of `,`, `;`, `:`,
and `speed` for every other character. With `speed = 0.05`, `delayheavy = 5.0` and
`delaylight = 3.0` the delay of `.` is `0.25`, that of `a` is `0.05`, and that of `,` is
the binary64 value `0.15000000000000002`. -/
theorem getDelay_cases (args : Args) (c : Char) :
    ((c = '.' ∨ c = '!' ∨ c = '?') → getDelay args c = F64.mul args.speed args.delayheavy)
      ∧ ((c = ',' ∨ c = ';' ∨ c = ':') →
          getDelay args c = F64.mul args.speed args.delaylight)
      ∧ ((c ≠ '.' ∧ c ≠ '!' ∧ c ≠ '?' ∧ c ≠ ',' ∧ c ≠ ';' ∧ c ≠ ':') →
          getDelay args c = args.speed)
      ∧ (args.speed = F64.ofRat false 5 100 → args.delayheavy = F64.ofRat false 5 1 →
          args.delaylight = F64.ofRat false 3 1 →
          getDelay args '.' = F64.ofRat false 25 100
            ∧ getDelay args ',' = F64.ofRat false 15000000000000002 100000000000000000
            ∧ getDelay args 'a' = F64.ofRat false 5 100) := by
  refine ⟨?_, ?_, ?_, ?_⟩
  · intro h
    rw [getDelay, if_pos h]
  · intro h
    have hn : ¬ (c = '.' ∨ c = '!' ∨ c = '?') := by
      rcases h with h | h | h <;> subst h <;> decide
    rw [getDelay, if_neg hn, if_pos h]
  · intro h
    have hn : ¬ (c = '.' ∨ c = '!' ∨ c = '?') := by
      rintro (h1 | h1 | h1)
      · exact h.1 h1
      · exact h.2.1 h1
      · exact h.2.2.1 h1
    have hn2 : ¬ (c = ',' ∨ c = ';' ∨ c = ':') := by
      rintro (h1 | h1 | h1)
      · exact h.2.2.2.1 h1
      · exact h.2.2.2.2.1 h1
      · exact h.2.2.2.2.2 h1
    rw [getDelay, if_neg hn, if_neg hn2]
  · intro hs hh hl
    refine ⟨?_, ?_, ?_⟩
    · rw [getDelay, if_pos (by decide), hs, hh, mul_0_05_5]
    · rw [getDelay, if_neg (by decide), if_pos (by decide), hs, hl, mul_0_05_3.1,
        mul_0_05_3.2.2.2]
    · rw [getDelay, if_neg (by decide), if_neg (by decide), hs]

theorem getDelay_cases_witness :
    getDelay defaultArgs ',' = F64.ofRat false 15000000000000002 100000000000000000 :=
  ((getDelay_cases defaultArgs ',').2.2.2 (by decide!) (by decide!) (by decide!)).2.1

/-- C9 (as stated, refuted): with `speed = 0.05` and `delaylight = 3.0`, the defaults,
the delay of `,` is not the binary64 value `0.15`: the product rounds to the next
binary64 value above it. -/
theorem getDelay_comma_ne_0_15 :
    defaultArgs.speed = F64.ofRat false 5 100
      ∧ defaultArgs.delayheavy = F64.ofRat false 5 1
      ∧ defaultArgs.delaylight = F64.ofRat false 3 1
      ∧ getDelay defaultArgs ',' ≠ F64.ofRat false 15 100
      ∧ getDelay defaultArgs ',' = F64.fin false 1351079888211149 (-53)
      ∧ F64.ofRat false 15 100 = F64.fin false 5404319552844595 (-55) := by
  refine ⟨?_, ?_, ?_, ?_, ?_, ?_⟩ <;> decide!

end RmDialog
